import Mathlib

/-!
A shallow embedding of the Vector Quantizer (VQ) layer and the masked
convolution helpers of `modules.py` (PatternFlow VQ-VAE component).
Tensors are modelled as flat lists of rationals (an exact stand-in for
machine floats) together with explicit shapes; the fallible reshape
(`view`) is modelled by an `Option`-valued forward pass.
-/

namespace VQVAE

/-- Dot product of two vectors (truncating at the shorter one). -/
def dot (a b : List ℚ) : ℚ := (List.zipWith (fun x y => x * y) a b).sum

/-- `torch.sum(t ** 2)` along a row: sum of squares. -/
def sumSq (a : List ℚ) : ℚ := (a.map (fun x => x * x)).sum

/-- Squared Euclidean distance between two vectors. -/
def sqDist (a b : List ℚ) : ℚ := sumSq (List.zipWith (fun x y => x - y) a b)

/-- The algebraic identity used at lines 145-148 of `modules.py`:
for equal-length vectors, `sum q^2 + sum e^2 - 2 * (q . e)` is exactly the
squared Euclidean distance. -/
theorem dist_identity : ∀ (a b : List ℚ), a.length = b.length →
    sumSq a + sumSq b - 2 * dot a b = sqDist a b
  | [], [], _ => by simp [dot, sumSq, sqDist]
  | x :: xs, y :: ys, h => by
    have ih := dist_identity xs ys (by simpa using h)
    simp only [dot, sumSq, sqDist, List.zipWith_cons_cons, List.map_cons,
      List.sum_cons] at ih ⊢
    linear_combination ih
  | [], _ :: _, h => by simp at h
  | _ :: _, [], h => by simp at h

/-- Index and value of the first minimum of a list: the semantics of
`torch.argmin` along one row (ties resolve to the smallest index). -/
def argminPair : List ℚ → Option (ℕ × ℚ)
  | [] => none
  | v :: rest =>
    match argminPair rest with
    | none => some (0, v)
    | some (i, m) => if m < v then some (i + 1, m) else some (0, v)

/-- `torch.argmin` along one row (first minimal index). -/
def argminFirst (l : List ℚ) : ℕ :=
  match argminPair l with
  | none => 0
  | some (i, _) => i

theorem argminPair_eq_none : ∀ (l : List ℚ), argminPair l = none ↔ l = []
  | [] => by simp [argminPair]
  | v :: rest => by
    cases h : argminPair rest with
    | none => simp [argminPair, h]
    | some p => cases p with
      | mk i m => by_cases hm : m < v <;> simp [argminPair, h, hm]

/-- Full specification of `argminPair`: the returned index is in range,
its entry is the returned value, the value is a lower bound for every
entry, and every strictly earlier entry is strictly larger. -/
theorem argminPair_spec : ∀ (l : List ℚ) (i : ℕ) (m : ℚ),
    argminPair l = some (i, m) →
    i < l.length ∧ l.getD i 0 = m ∧ (∀ j, j < l.length → m ≤ l.getD j 0) ∧
      (∀ j, j < i → m < l.getD j 0)
  | [], i, m, h => by simp [argminPair] at h
  | v :: rest, i, m, h => by
    cases hrest : argminPair rest with
    | none =>
      have hnil : rest = [] := (argminPair_eq_none rest).mp hrest
      subst hnil
      simp only [argminPair, Option.some.injEq, Prod.mk.injEq] at h
      obtain ⟨hi, hm⟩ := h
      subst hi; subst hm
      refine ⟨by simp, by simp, ?_, by omega⟩
      intro j hj
      have hj0 : j = 0 := by simpa using hj
      subst hj0
      simp
    | some p =>
      obtain ⟨iR, mR⟩ := p
      obtain ⟨hRlt, hRget, hRmin, hRfirst⟩ := argminPair_spec rest iR mR hrest
      simp only [argminPair] at h
      rw [hrest] at h
      by_cases hm : mR < v
      · simp only [if_pos hm, Option.some.injEq, Prod.mk.injEq] at h
        obtain ⟨hi, hmm⟩ := h
        subst hmm
        subst hi
        refine ⟨by simpa using hRlt, by simpa using hRget, ?_, ?_⟩
        · intro j hj
          cases j with
          | zero => simpa using le_of_lt hm
          | succ j =>
            simp only [List.getD_cons_succ]
            exact hRmin j (by simpa using hj)
        · intro j hj
          cases j with
          | zero => simpa using hm
          | succ j =>
            simp only [List.getD_cons_succ]
            exact hRfirst j (by omega)
      · simp only [if_neg hm, Option.some.injEq, Prod.mk.injEq] at h
        obtain ⟨hi, hmm⟩ := h
        subst hmm
        subst hi
        refine ⟨by simp, by simp, ?_, by omega⟩
        intro j hj
        cases j with
        | zero => simp
        | succ j =>
          simp only [List.getD_cons_succ]
          exact le_trans (not_lt.mp hm) (hRmin j (by simpa using hj))

/-- One row of the `encodings` matrix (lines 157-160 of `modules.py`):
`torch.zeros(num_embeddings)` with the position given by the row's index
set to `1` by `scatter_`. -/
def oneHot (K i : ℕ) : List ℚ := (List.replicate K 0).set i 1

theorem dot_cons (x y : ℚ) (xs ys : List ℚ) :
    dot (x :: xs) (y :: ys) = x * y + dot xs ys := by
  simp [dot]

theorem dot_replicate_zero : ∀ (n : ℕ) (l : List ℚ),
    dot (List.replicate n 0) l = 0
  | 0, _ => by simp [dot]
  | _ + 1, [] => by simp [dot]
  | n + 1, x :: xs => by
    rw [List.replicate_succ, dot_cons, dot_replicate_zero n xs]
    ring

theorem dot_oneHot : ∀ (i K : ℕ) (col : List ℚ), i < K → col.length = K →
    dot (oneHot K i) col = col.getD i 0
  | _, 0, _, hi, _ => absurd hi (Nat.not_lt_zero _)
  | 0, _ + 1, [], _, hl => by simp at hl
  | _ + 1, _ + 1, [], _, hl => by simp at hl
  | 0, K + 1, c :: cs, _, _ => by
    simp only [oneHot, List.replicate_succ, List.set_cons_zero]
    rw [dot_cons, dot_replicate_zero]
    simp
  | i + 1, K + 1, c :: cs, hi, hl => by
    have ih := dot_oneHot i K cs (by omega) (by simpa using hl)
    simp only [oneHot, List.replicate_succ, List.set_cons_succ] at ih ⊢
    rw [dot_cons, ih]
    simp

/-- `torch.matmul(encodings, weight)`, one row at a time: entry `d` of the
product row is the dot product of the one-hot row with column `d` of the
weight matrix (a matrix represented as its list of rows). -/
def matmulRow (v : List ℚ) (B : List (List ℚ)) (D : ℕ) : List ℚ :=
  (List.range D).map (fun d => dot v (B.map (fun r => r.getD d 0)))

theorem getD_map_lt {α β : Type} (f : α → β) (l : List α) (i : ℕ) (d : α)
    (d2 : β) (h : i < l.length) : (l.map f).getD i d2 = f (l.getD i d) := by
  rw [List.getD_eq_getElem _ _ (by simpa using h), List.getD_eq_getElem _ _ h,
    List.getElem_map]

theorem getD_range {n i : ℕ} (d : ℕ) (h : i < n) :
    (List.range n).getD i d = i := by
  rw [List.getD_eq_getElem _ _ (by simpa using h)]
  exact List.getElem_range _ _

theorem length_matmulRow (v : List ℚ) (B : List (List ℚ)) (D : ℕ) :
    (matmulRow v B D).length = D := by
  simp [matmulRow]

theorem matmulRow_getD (v : List ℚ) (B : List (List ℚ)) (D d : ℕ)
    (hd : d < D) : (matmulRow v B D).getD d 0
      = dot v (B.map (fun r => r.getD d 0)) := by
  unfold matmulRow
  rw [getD_map_lt _ _ _ 0 _ (by simpa using hd), getD_range 0 hd]

/-- The one-hot times weight product selects exactly the weight row at the
chosen index. -/
theorem matmulRow_oneHot (K i D : ℕ) (W : List (List ℚ))
    (hW : W.length = K) (hi : i < K) (d : ℕ) (hd : d < D) :
    (matmulRow (oneHot K i) W D).getD d 0 = (W.getD i []).getD d 0 := by
  rw [matmulRow_getD _ _ _ _ hd,
    dot_oneHot i K _ hi (by simpa using hW),
    getD_map_lt _ _ _ [] _ (by omega)]

theorem length_flatMap_const {α : Type} (L : ℕ) :
    ∀ (l : List α) (f : α → List ℚ), (∀ a ∈ l, (f a).length = L) →
      (l.flatMap f).length = l.length * L
  | [], _, _ => by simp
  | a :: l, f, hf => by
    have ih := length_flatMap_const L l f (fun x hx => hf x (by simp [hx]))
    simp only [List.flatMap_cons, List.length_append, ih, hf a (by simp),
      List.length_cons]
    ring

theorem flatMap_getD {α : Type} (L : ℕ) :
    ∀ (l : List α) (f : α → List ℚ), (∀ a ∈ l, (f a).length = L) →
    ∀ (i j : ℕ) (d : α), i < l.length → j < L →
      (l.flatMap f).getD (i * L + j) 0 = (f (l.getD i d)).getD j 0
  | [], _, _, _, _, _, hi, _ => absurd hi (by simp)
  | a :: l, f, hf, 0, j, d, _, hj => by
    simp only [List.flatMap_cons, Nat.zero_mul, Nat.zero_add,
      List.getD_cons_zero]
    rw [List.getD_append]
    rw [hf a (by simp)]
    exact hj
  | a :: l, f, hf, i + 1, j, d, hi, hj => by
    have ih := flatMap_getD L l f (fun x hx => hf x (by simp [hx])) i j d
      (by simpa using hi) hj
    simp only [List.flatMap_cons, List.getD_cons_succ]
    rw [show (i + 1) * L + j = (f a).length + (i * L + j) by
      rw [hf a (by simp)]; ring]
    rw [List.getD_append_right _ _ _ _ (Nat.le_add_right _ _)]
    simpa using ih

theorem length_flatMap_range (n L : ℕ) (f : ℕ → List ℚ)
    (hf : ∀ i, (f i).length = L) : ((List.range n).flatMap f).length = n * L := by
  rw [length_flatMap_const L _ f (fun a _ => hf a), List.length_range]

theorem flatMap_range_getD (n L : ℕ) (f : ℕ → List ℚ)
    (hf : ∀ i, (f i).length = L) (i j : ℕ) (hi : i < n) (hj : j < L) :
    ((List.range n).flatMap f).getD (i * L + j) 0 = (f i).getD j 0 := by
  rw [flatMap_getD L _ f (fun a _ => hf a) i j 0 (by simpa using hi) hj,
    getD_range 0 hi]

theorem mul_add_lt {a A b B : ℕ} (ha : a < A) (hb : b < B) :
    a * B + b < A * B :=
  calc a * B + b < a * B + B := Nat.add_lt_add_left hb _
  _ = (a + 1) * B := by ring
  _ ≤ A * B := Nat.mul_le_mul_right _ ha

/-- A 4-dimensional tensor in channel-first BCHW layout: the four shape
fields and the row-major flat data (`b` slowest axis, `w` fastest). -/
structure Tensor4 where
  b : ℕ
  c : ℕ
  h : ℕ
  w : ℕ
  data : List ℚ
  deriving DecidableEq

/-- Lines 129-137 of `modules.py`:
`encoder_inputs.permute(0, 2, 3, 1).contiguous()` followed by the
row-major flat read-out that `.view` operates on — the BHWC-ordered data
list of the input tensor. -/
def toBHWC (x : Tensor4) : List ℚ :=
  (List.range x.b).flatMap (fun bi =>
    (List.range x.h).flatMap (fun hi =>
      (List.range x.w).flatMap (fun wi =>
        (List.range x.c).map (fun ci =>
          x.data.getD (((bi * x.c + ci) * x.h + hi) * x.w + wi) 0))))

theorem length_toBHWC (x : Tensor4) :
    (toBHWC x).length = x.b * (x.h * (x.w * x.c)) := by
  unfold toBHWC
  exact length_flatMap_range _ _ _ (fun i =>
    length_flatMap_range _ _ _ (fun j =>
      length_flatMap_range _ _ _ (fun k => by simp)))

theorem toBHWC_getD (x : Tensor4) (bi hi wi ci : ℕ)
    (hb : bi < x.b) (hh : hi < x.h) (hw : wi < x.w) (hc : ci < x.c) :
    (toBHWC x).getD (((bi * x.h + hi) * x.w + wi) * x.c + ci) 0
      = x.data.getD (((bi * x.c + ci) * x.h + hi) * x.w + wi) 0 := by
  unfold toBHWC
  rw [show ((bi * x.h + hi) * x.w + wi) * x.c + ci
      = bi * (x.h * (x.w * x.c)) + (hi * (x.w * x.c) + (wi * x.c + ci)) by
    ring]
  rw [flatMap_range_getD _ _ _ (fun i =>
      length_flatMap_range _ _ _ (fun j =>
        length_flatMap_range _ _ _ (fun k => by simp)))
    bi _ hb (mul_add_lt hh (mul_add_lt hw hc))]
  rw [flatMap_range_getD _ _ _ (fun j =>
      length_flatMap_range _ _ _ (fun k => by simp))
    hi _ hh (mul_add_lt hw hc)]
  rw [flatMap_range_getD _ _ _ (fun k => by simp) wi _ hw hc]
  rw [getD_map_lt _ _ _ 0 _ (by simpa using hc), getD_range 0 hc]

/-- Lines 190-196 of `modules.py`: `.view(shape)` re-interprets a flat
list in BHWC shape `(b, h, w, c)`, and `permute(0, 3, 1, 2).contiguous()`
reads it back out in channel-first BCHW order. -/
def fromBHWC (b c h w : ℕ) (flat : List ℚ) : Tensor4 :=
  ⟨b, c, h, w,
    (List.range b).flatMap (fun bi =>
      (List.range c).flatMap (fun ci =>
        (List.range h).flatMap (fun hi =>
          (List.range w).map (fun wi =>
            flat.getD (((bi * h + hi) * w + wi) * c + ci) 0))))⟩

theorem length_fromBHWC (b c h w : ℕ) (flat : List ℚ) :
    (fromBHWC b c h w flat).data.length = b * (c * (h * w)) := by
  unfold fromBHWC
  exact length_flatMap_range _ _ _ (fun i =>
    length_flatMap_range _ _ _ (fun j =>
      length_flatMap_range _ _ _ (fun k => by simp)))

theorem fromBHWC_getD (b c h w : ℕ) (flat : List ℚ) (bi ci hi wi : ℕ)
    (hb : bi < b) (hc : ci < c) (hh : hi < h) (hw : wi < w) :
    (fromBHWC b c h w flat).data.getD (((bi * c + ci) * h + hi) * w + wi) 0
      = flat.getD (((bi * h + hi) * w + wi) * c + ci) 0 := by
  unfold fromBHWC
  rw [show ((bi * c + ci) * h + hi) * w + wi
      = bi * (c * (h * w)) + (ci * (h * w) + (hi * w + wi)) by ring]
  rw [flatMap_range_getD _ _ _ (fun i =>
      length_flatMap_range _ _ _ (fun j =>
        length_flatMap_range _ _ _ (fun k => by simp)))
    bi _ hb (mul_add_lt hc (mul_add_lt hh hw))]
  rw [flatMap_range_getD _ _ _ (fun j =>
      length_flatMap_range _ _ _ (fun k => by simp))
    ci _ hc (mul_add_lt hh hw)]
  rw [flatMap_range_getD _ _ _ (fun k => by simp) hi _ hh hw]
  rw [getD_map_lt _ _ _ 0 _ (by simpa using hw), getD_range 0 hw]

/-- Line 137 of `modules.py`: `.view(-1, embedding_dim)` over a flat
row-major list — the list of `length / D` consecutive rows of length `D`
(the caller checks divisibility, as `view` raises otherwise). -/
def chunkD (D : ℕ) (l : List ℚ) : List (List ℚ) :=
  (List.range (l.length / D)).map (fun n =>
    (List.range D).map (fun d => l.getD (n * D + d) 0))

theorem length_chunkD (D : ℕ) (l : List ℚ) :
    (chunkD D l).length = l.length / D := by
  simp [chunkD]

theorem chunkD_getD (D : ℕ) (l : List ℚ) (n : ℕ) (hn : n < l.length / D) :
    (chunkD D l).getD n []
      = (List.range D).map (fun d => l.getD (n * D + d) 0) := by
  unfold chunkD
  rw [getD_map_lt _ _ _ 0 _ (by simpa using hn), getD_range 0 hn]

theorem chunkD_row_length (D : ℕ) (l : List ℚ) (n : ℕ)
    (hn : n < l.length / D) : ((chunkD D l).getD n []).length = D := by
  rw [chunkD_getD D l n hn]
  simp

theorem chunkD_row_getD (D : ℕ) (l : List ℚ) (n d : ℕ)
    (hn : n < l.length / D) (hd : d < D) :
    ((chunkD D l).getD n []).getD d 0 = l.getD (n * D + d) 0 := by
  rw [chunkD_getD D l n hn, getD_map_lt _ _ _ 0 _ (by simpa using hd),
    getD_range 0 hd]

theorem sum_sq_zip_nonneg : ∀ (a b : List ℚ),
    0 ≤ (List.zipWith (fun x y => (x - y) ^ 2) a b).sum
  | [], _ => by simp
  | _ :: _, [] => by simp
  | x :: xs, y :: ys => by
    have ih := sum_sq_zip_nonneg xs ys
    simp only [List.zipWith_cons_cons, List.sum_cons]
    exact add_nonneg (sq_nonneg _) ih

/-- `torch.nn.functional.mse_loss` with the default mean reduction: the
mean of the elementwise squared differences. With zero elements the
rational model yields `0 / 0 = 0` (PyTorch produces `NaN` there). -/
def mse_loss (a b : List ℚ) : ℚ :=
  (List.zipWith (fun x y => (x - y) ^ 2) a b).sum / (a.length : ℚ)

theorem mse_loss_nonneg (a b : List ℚ) : 0 ≤ mse_loss a b :=
  div_nonneg (sum_sq_zip_nonneg a b) (by positivity)

/-- Value semantics of `Tensor.detach()`: identical forward values (the
gradient-blocking side is modelled separately by `TExpr.detach`). -/
def detachQ (q : ℚ) : ℚ := q

/-- `Tensor.detach()` on a whole tensor, value semantics. -/
def detachL (l : List ℚ) : List ℚ := l

theorem argminFirst_lt_length (l : List ℚ) (hl : l ≠ []) :
    argminFirst l < l.length := by
  cases h : argminPair l with
  | none => exact absurd ((argminPair_eq_none l).mp h) hl
  | some p =>
    obtain ⟨i, m⟩ := p
    have := (argminPair_spec l i m h).1
    simpa [argminFirst, h]

/-- The `VQ` module state after construction (lines 97-112 of
`modules.py`): `num_embeddings` (K), `embedding_dim` (D), the
`embedding_table.weight` matrix (K rows of length D) and the
`commitment_loss` weight beta. -/
structure VQ where
  num_embeddings : ℕ
  embedding_dim : ℕ
  weight : List (List ℚ)
  commitment_loss : ℚ

/-- Shape facts the constructor guarantees: `nn.Embedding(K, D)` allocates
a K x D weight matrix, with positive K and D per the construction
contract. -/
def VQ.WellFormed (m : VQ) : Prop :=
  m.weight.length = m.num_embeddings ∧
    (∀ r ∈ m.weight, r.length = m.embedding_dim) ∧
    0 < m.num_embeddings ∧ 0 < m.embedding_dim

instance (m : VQ) : Decidable m.WellFormed := by
  unfold VQ.WellFormed
  infer_instance

/-- Lines 145-148 of `modules.py`: one row of the `all_distances` N x K
matrix, computed with the expanded identity
`sum(q**2) + sum(e**2) - 2 * q @ e.t()`. -/
def VQ.all_distances_row (m : VQ) (q : List ℚ) : List ℚ :=
  m.weight.map (fun e => sumSq q + sumSq e - 2 * dot q e)

/-- Line 152 of `modules.py`: `indexes = torch.argmin(all_distances,
dim=1)` — per flattened input row, the first index of minimal distance. -/
def VQ.selected_indexes (m : VQ) (x : Tensor4) : List ℕ :=
  (chunkD m.embedding_dim (toBHWC x)).map
    (fun q => argminFirst (m.all_distances_row q))

/-- Lines 157-165 of `modules.py`: the `encodings` one-hot matrix times
the codebook, flattened back out — the quantized tensor in flat BHWC
order. -/
def VQ.quantized_bhwc (m : VQ) (x : Tensor4) : List ℚ :=
  (m.selected_indexes x).flatMap
    (fun i => matmulRow (oneHot m.num_embeddings i) m.weight m.embedding_dim)

/-- Lines 125-198 of `modules.py`: the full forward pass. `none` models
the `RuntimeError` that `view(-1, embedding_dim)` raises when the element
count is not divisible by `embedding_dim`; otherwise the pass returns the
straight-through output re-packed in BCHW layout together with the scalar
loss `first_term + commitment_loss * second_term`. -/
def VQ.forward (m : VQ) (x : Tensor4) : Option (Tensor4 × ℚ) :=
  let encoder_inputs := toBHWC x
  if m.embedding_dim = 0 ∨ ¬ encoder_inputs.length % m.embedding_dim = 0 then
    none
  else
    let quantized := m.quantized_bhwc x
    let first_term := mse_loss (detachL quantized) encoder_inputs
    let second_term := mse_loss quantized (detachL encoder_inputs)
    let beta := m.commitment_loss
    let loss := first_term + beta * second_term
    let st := List.zipWith (fun xi qi => xi + detachQ (qi - xi))
      encoder_inputs quantized
    some (fromBHWC x.b x.c x.h x.w st, loss)

theorem length_selected_indexes (m : VQ) (x : Tensor4) :
    (m.selected_indexes x).length = (toBHWC x).length / m.embedding_dim := by
  simp [VQ.selected_indexes, length_chunkD]

theorem length_quantized_bhwc (m : VQ) (x : Tensor4) :
    (m.quantized_bhwc x).length
      = ((toBHWC x).length / m.embedding_dim) * m.embedding_dim := by
  unfold VQ.quantized_bhwc
  rw [length_flatMap_const m.embedding_dim _ _
    (fun a _ => length_matmulRow _ _ _), length_selected_indexes]

theorem straight_through_eq : ∀ (a q : List ℚ), a.length = q.length →
    List.zipWith (fun xi qi => xi + detachQ (qi - xi)) a q = q
  | [], [], _ => rfl
  | [], _ :: _, h => by simp at h
  | _ :: _, [], h => by simp at h
  | x :: xs, y :: ys, h => by
    have ih := straight_through_eq xs ys (by simpa using h)
    simp only [List.zipWith_cons_cons, ih, detachQ]
    congr 1
    ring

theorem argminFirst_spec (l : List ℚ) (hl : l ≠ []) :
    argminFirst l < l.length ∧
      (∀ j, j < l.length → l.getD (argminFirst l) 0 ≤ l.getD j 0) ∧
      (∀ j, j < argminFirst l → l.getD (argminFirst l) 0 < l.getD j 0) := by
  cases h : argminPair l with
  | none => exact absurd ((argminPair_eq_none l).mp h) hl
  | some p =>
    obtain ⟨i, m⟩ := p
    obtain ⟨h1, h2, h3, h4⟩ := argminPair_spec l i m h
    have hfirst : argminFirst l = i := by simp [argminFirst, h]
    rw [hfirst, h2]
    exact ⟨h1, h3, h4⟩

theorem toBHWC_div (m : VQ) (x : Tensor4) (hc : x.c = m.embedding_dim)
    (hD : 0 < m.embedding_dim) :
    (toBHWC x).length / m.embedding_dim = x.b * x.h * x.w := by
  rw [length_toBHWC, hc,
    show x.b * (x.h * (x.w * m.embedding_dim))
      = x.b * x.h * x.w * m.embedding_dim by ring,
    Nat.mul_div_cancel _ hD]

theorem forward_eq (m : VQ) (x : Tensor4) (hD : ¬ m.embedding_dim = 0)
    (hmod : (toBHWC x).length % m.embedding_dim = 0) :
    m.forward x = some
      (fromBHWC x.b x.c x.h x.w
        (List.zipWith (fun xi qi => xi + detachQ (qi - xi)) (toBHWC x)
          (m.quantized_bhwc x)),
       mse_loss (detachL (m.quantized_bhwc x)) (toBHWC x)
         + m.commitment_loss
           * mse_loss (m.quantized_bhwc x) (detachL (toBHWC x))) := by
  unfold VQ.forward
  rw [if_neg (by simp [hD, hmod])]

theorem forward_eq_none_iff (m : VQ) (x : Tensor4)
    (hD : 0 < m.embedding_dim) :
    m.forward x = none ↔ ¬ m.embedding_dim ∣ (toBHWC x).length := by
  unfold VQ.forward
  by_cases hmod : (toBHWC x).length % m.embedding_dim = 0
  · rw [if_neg (by simp [Nat.pos_iff_ne_zero.mp hD, hmod])]
    simp [Nat.dvd_iff_mod_eq_zero, hmod]
  · rw [if_pos (by simp [hmod])]
    simp [Nat.dvd_iff_mod_eq_zero, hmod]

theorem st_eq_quantized (m : VQ) (x : Tensor4)
    (hdvd : m.embedding_dim ∣ (toBHWC x).length) :
    List.zipWith (fun xi qi => xi + detachQ (qi - xi)) (toBHWC x)
      (m.quantized_bhwc x) = m.quantized_bhwc x :=
  straight_through_eq _ _ (by
    rw [length_quantized_bhwc, Nat.div_mul_cancel hdvd])

theorem selected_indexes_getD (m : VQ) (x : Tensor4) (n : ℕ)
    (hn : n < (toBHWC x).length / m.embedding_dim) :
    (m.selected_indexes x).getD n 0
      = argminFirst (m.all_distances_row
          ((chunkD m.embedding_dim (toBHWC x)).getD n [])) := by
  unfold VQ.selected_indexes
  rw [getD_map_lt _ _ _ [] _ (by rw [length_chunkD]; exact hn)]

theorem all_distances_row_length (m : VQ) (q : List ℚ) :
    (m.all_distances_row q).length = m.weight.length := by
  simp [VQ.all_distances_row]

theorem all_distances_row_getD (m : VQ) (q : List ℚ) (k : ℕ)
    (hk : k < m.weight.length) :
    (m.all_distances_row q).getD k 0
      = sumSq q + sumSq (m.weight.getD k [])
        - 2 * dot q (m.weight.getD k []) := by
  unfold VQ.all_distances_row
  rw [getD_map_lt _ _ _ [] _ hk]

theorem selected_index_lt (m : VQ) (x : Tensor4)
    (hwl : m.weight.length = m.num_embeddings) (hK : 0 < m.num_embeddings)
    (n : ℕ) (hn : n < (toBHWC x).length / m.embedding_dim) :
    (m.selected_indexes x).getD n 0 < m.num_embeddings := by
  rw [selected_indexes_getD m x n hn]
  have := argminFirst_lt_length
    (m.all_distances_row ((chunkD m.embedding_dim (toBHWC x)).getD n []))
    (by
      apply List.ne_nil_of_length_pos
      rw [all_distances_row_length, hwl]
      exact hK)
  rwa [all_distances_row_length, hwl] at this

theorem quantized_bhwc_getD (m : VQ) (x : Tensor4)
    (hwl : m.weight.length = m.num_embeddings) (hK : 0 < m.num_embeddings)
    (n d : ℕ) (hn : n < (toBHWC x).length / m.embedding_dim)
    (hd : d < m.embedding_dim) :
    (m.quantized_bhwc x).getD (n * m.embedding_dim + d) 0
      = (m.weight.getD ((m.selected_indexes x).getD n 0) []).getD d 0 := by
  unfold VQ.quantized_bhwc
  rw [flatMap_getD m.embedding_dim _ _ (fun a _ => length_matmulRow _ _ _)
    n d 0 (by rw [length_selected_indexes]; exact hn) hd]
  exact matmulRow_oneHot m.num_embeddings _ m.embedding_dim m.weight hwl
    (selected_index_lt m x hwl hK n hn) d hd

/-- C1: for every input tensor of shape (B, D, H, W) and every codebook
state, each of the N = B*H*W flattened query vectors is assigned (by
`torch.argmin` at line 152 of `modules.py`) a codebook index in range
whose squared Euclidean distance to the query is at most the distance to
every other codebook vector, and every strictly smaller index has strictly
larger distance — so ties select the first (smallest) minimizing index. -/
theorem vq_selects_nearest_codebook_index (m : VQ) (x : Tensor4)
    (hwf : m.WellFormed) (hc : x.c = m.embedding_dim) (n : ℕ)
    (hn : n < x.b * x.h * x.w) :
    (m.selected_indexes x).getD n 0 < m.num_embeddings ∧
      (∀ k, k < m.num_embeddings →
        sqDist ((chunkD m.embedding_dim (toBHWC x)).getD n [])
            (m.weight.getD ((m.selected_indexes x).getD n 0) [])
          ≤ sqDist ((chunkD m.embedding_dim (toBHWC x)).getD n [])
            (m.weight.getD k [])) ∧
      (∀ k, k < (m.selected_indexes x).getD n 0 →
        sqDist ((chunkD m.embedding_dim (toBHWC x)).getD n [])
            (m.weight.getD ((m.selected_indexes x).getD n 0) [])
          < sqDist ((chunkD m.embedding_dim (toBHWC x)).getD n [])
            (m.weight.getD k [])) := by
  obtain ⟨hwl, hrows, hK, hD⟩ := hwf
  have hn2 : n < (toBHWC x).length / m.embedding_dim := by
    rwa [toBHWC_div m x hc hD]
  have hilt := selected_index_lt m x hwl hK n hn2
  have hqlen : ((chunkD m.embedding_dim (toBHWC x)).getD n []).length
      = m.embedding_dim := chunkD_row_length _ _ n hn2
  have hwk : ∀ k, k < m.num_embeddings →
      (m.weight.getD k []).length = m.embedding_dim := by
    intro k hk
    apply hrows
    rw [List.getD_eq_getElem _ _ (by rw [hwl]; exact hk)]
    exact List.getElem_mem _
  have hdist : ∀ k, k < m.num_embeddings →
      (m.all_distances_row ((chunkD m.embedding_dim (toBHWC x)).getD n [])).getD k 0
        = sqDist ((chunkD m.embedding_dim (toBHWC x)).getD n [])
            (m.weight.getD k []) := by
    intro k hk
    rw [all_distances_row_getD m _ k (by rw [hwl]; exact hk)]
    exact dist_identity _ _ (by rw [hqlen, hwk k hk])
  have hne : m.all_distances_row
      ((chunkD m.embedding_dim (toBHWC x)).getD n []) ≠ [] := by
    apply List.ne_nil_of_length_pos
    rw [all_distances_row_length, hwl]
    exact hK
  obtain ⟨_, ha2, ha3⟩ := argminFirst_spec _ hne
  have hsel := selected_indexes_getD m x n hn2
  have hilt2 : argminFirst (m.all_distances_row
      ((chunkD m.embedding_dim (toBHWC x)).getD n [])) < m.num_embeddings := by
    rw [← hsel]
    exact hilt
  refine ⟨hilt, ?_, ?_⟩
  · intro k hk
    rw [hsel, ← hdist _ hilt2, ← hdist k hk]
    exact ha2 k (by rw [all_distances_row_length, hwl]; exact hk)
  · intro k hk
    rw [hsel] at hk ⊢
    have hkK : k < m.num_embeddings := lt_trans hk hilt2
    rw [← hdist _ hilt2, ← hdist k hkK]
    exact ha3 k hk

/-- Witness for C1: K = 2, D = 1, codebook rows [0] and [5], single query
vector [3]: the selected index minimizes the squared distance (index 1,
distance 4, beats index 0, distance 9). -/
theorem vq_selects_nearest_codebook_index_witness :
    (VQ.selected_indexes ⟨2, 1, [[0], [5]], 1/4⟩ ⟨1, 1, 1, 1, [3]⟩).getD 0 0
        < (2 : ℕ) ∧
      (∀ k, k < (2 : ℕ) →
        sqDist ((chunkD 1 (toBHWC ⟨1, 1, 1, 1, [3]⟩)).getD 0 [])
            ([[(0 : ℚ)], [5]].getD
              ((VQ.selected_indexes ⟨2, 1, [[0], [5]], 1/4⟩
                ⟨1, 1, 1, 1, [3]⟩).getD 0 0) [])
          ≤ sqDist ((chunkD 1 (toBHWC ⟨1, 1, 1, 1, [3]⟩)).getD 0 [])
            ([[(0 : ℚ)], [5]].getD k [])) ∧
      (∀ k, k < (VQ.selected_indexes ⟨2, 1, [[0], [5]], 1/4⟩
          ⟨1, 1, 1, 1, [3]⟩).getD 0 0 →
        sqDist ((chunkD 1 (toBHWC ⟨1, 1, 1, 1, [3]⟩)).getD 0 [])
            ([[(0 : ℚ)], [5]].getD
              ((VQ.selected_indexes ⟨2, 1, [[0], [5]], 1/4⟩
                ⟨1, 1, 1, 1, [3]⟩).getD 0 0) [])
          < sqDist ((chunkD 1 (toBHWC ⟨1, 1, 1, 1, [3]⟩)).getD 0 [])
            ([[(0 : ℚ)], [5]].getD k [])) :=
  vq_selects_nearest_codebook_index ⟨2, 1, [[0], [5]], 1/4⟩
    ⟨1, 1, 1, 1, [3]⟩ (by decide) (by decide) 0 (by decide)

/-- C2: for every valid input and codebook state the forward pass
succeeds, the straight-through tensor `input + detach(quantized - input)`
of line 190 equals the quantized tensor value-for-value, and the returned
tensor holds, at every (batch, height, width) position and channel, the
entry of the codebook row selected for that position (the one-hot times
codebook product of lines 157-165 selects that row). -/
theorem vq_quantized_equals_codebook_rows (m : VQ) (x : Tensor4)
    (hwf : m.WellFormed) (hc : x.c = m.embedding_dim) :
    ∃ out loss, m.forward x = some (out, loss) ∧
      List.zipWith (fun xi qi => xi + detachQ (qi - xi)) (toBHWC x)
          (m.quantized_bhwc x) = m.quantized_bhwc x ∧
      ∀ bi hi wi di, bi < x.b → hi < x.h → wi < x.w →
        di < m.embedding_dim →
        out.data.getD
            (((bi * m.embedding_dim + di) * x.h + hi) * x.w + wi) 0
          = (m.weight.getD
              ((m.selected_indexes x).getD ((bi * x.h + hi) * x.w + wi) 0)
              []).getD di 0 := by
  obtain ⟨hwl, hrows, hK, hD⟩ := hwf
  have hdvd : m.embedding_dim ∣ (toBHWC x).length := by
    rw [length_toBHWC, hc]
    exact ⟨x.b * x.h * x.w, by ring⟩
  have hmod : (toBHWC x).length % m.embedding_dim = 0 :=
    Nat.dvd_iff_mod_eq_zero.mp hdvd
  refine ⟨_, _, forward_eq m x (Nat.pos_iff_ne_zero.mp hD) hmod,
    st_eq_quantized m x hdvd, ?_⟩
  intro bi hi wi di hb hh hw hd
  have hn : (bi * x.h + hi) * x.w + wi
      < (toBHWC x).length / m.embedding_dim := by
    rw [toBHWC_div m x hc hD]
    exact mul_add_lt (mul_add_lt hb hh) hw
  have hd2 : di < x.c := by rw [hc]; exact hd
  rw [← hc]
  rw [fromBHWC_getD x.b x.c x.h x.w _ bi di hi wi hb hd2 hh hw]
  rw [st_eq_quantized m x hdvd]
  rw [hc]
  exact quantized_bhwc_getD m x hwl hK _ di hn hd

/-- Witness for C2: K = 2, D = 2, codebook [[0,0],[10,10]], one position
with channel vector [1,1]. -/
theorem vq_quantized_equals_codebook_rows_witness :
    ∃ out loss,
      VQ.forward ⟨2, 2, [[0, 0], [10, 10]], 1/4⟩ ⟨1, 2, 1, 1, [1, 1]⟩
          = some (out, loss) ∧
      List.zipWith (fun xi qi => xi + detachQ (qi - xi))
          (toBHWC ⟨1, 2, 1, 1, [1, 1]⟩)
          (VQ.quantized_bhwc ⟨2, 2, [[0, 0], [10, 10]], 1/4⟩
            ⟨1, 2, 1, 1, [1, 1]⟩)
        = VQ.quantized_bhwc ⟨2, 2, [[0, 0], [10, 10]], 1/4⟩
            ⟨1, 2, 1, 1, [1, 1]⟩ ∧
      ∀ bi hi wi di, bi < 1 → hi < 1 → wi < 1 → di < 2 →
        out.data.getD (((bi * 2 + di) * 1 + hi) * 1 + wi) 0
          = ([[(0 : ℚ), 0], [10, 10]].getD
              ((VQ.selected_indexes ⟨2, 2, [[0, 0], [10, 10]], 1/4⟩
                  ⟨1, 2, 1, 1, [1, 1]⟩).getD ((bi * 1 + hi) * 1 + wi) 0)
              []).getD di 0 :=
  vq_quantized_equals_codebook_rows ⟨2, 2, [[0, 0], [10, 10]], 1/4⟩
    ⟨1, 2, 1, 1, [1, 1]⟩ (by decide) (by decide)

/-- C3: for every valid input and codebook state the scalar loss the
forward pass returns is
exactly `first_term + commitment_loss * second_term` (lines 176-185),
where the first term is the MSE between the detached quantized tensor and
the channel-last input and the second is the MSE between the quantized
tensor and the detached input, and both terms are nonnegative. -/
theorem vq_loss_formula (m : VQ) (x : Tensor4)
    (hc : x.c = m.embedding_dim) (hD : 0 < m.embedding_dim) :
    ∃ out, m.forward x = some (out,
        mse_loss (detachL (m.quantized_bhwc x)) (toBHWC x)
          + m.commitment_loss
            * mse_loss (m.quantized_bhwc x) (detachL (toBHWC x))) ∧
      0 ≤ mse_loss (detachL (m.quantized_bhwc x)) (toBHWC x) ∧
      0 ≤ mse_loss (m.quantized_bhwc x) (detachL (toBHWC x)) := by
  have hmod : (toBHWC x).length % m.embedding_dim = 0 :=
    Nat.dvd_iff_mod_eq_zero.mp (by
      rw [length_toBHWC, hc]
      exact ⟨x.b * x.h * x.w, by ring⟩)
  exact ⟨_, forward_eq m x (Nat.pos_iff_ne_zero.mp hD) hmod,
    mse_loss_nonneg _ _, mse_loss_nonneg _ _⟩

/-- Witness for C3: K = 1, D = 1, codebook [[0]], input [2], beta = 1/4:
the forward pass returns exactly the loss `first + (1/4) * second` with
both terms nonnegative. -/
theorem vq_loss_formula_witness :
    ∃ out,
      VQ.forward ⟨1, 1, [[0]], 1/4⟩ ⟨1, 1, 1, 1, [2]⟩ = some (out,
        mse_loss
            (detachL (VQ.quantized_bhwc ⟨1, 1, [[0]], 1/4⟩
              ⟨1, 1, 1, 1, [2]⟩))
            (toBHWC ⟨1, 1, 1, 1, [2]⟩)
          + (1/4 : ℚ) * mse_loss
              (VQ.quantized_bhwc ⟨1, 1, [[0]], 1/4⟩ ⟨1, 1, 1, 1, [2]⟩)
              (detachL (toBHWC ⟨1, 1, 1, 1, [2]⟩))) ∧
      0 ≤ mse_loss
          (detachL (VQ.quantized_bhwc ⟨1, 1, [[0]], 1/4⟩
            ⟨1, 1, 1, 1, [2]⟩))
          (toBHWC ⟨1, 1, 1, 1, [2]⟩) ∧
      0 ≤ mse_loss
          (VQ.quantized_bhwc ⟨1, 1, [[0]], 1/4⟩ ⟨1, 1, 1, 1, [2]⟩)
          (detachL (toBHWC ⟨1, 1, 1, 1, [2]⟩)) :=
  vq_loss_formula ⟨1, 1, [[0]], 1/4⟩ ⟨1, 1, 1, 1, [2]⟩
    (by decide) (by decide)

/-- C7: for every input whose channel dimension equals the configured
embedding dimension, the forward pass succeeds and the returned quantized
tensor has the identical (B, C, H, W) shape. -/
theorem vq_output_shape (m : VQ) (x : Tensor4)
    (hc : x.c = m.embedding_dim) (hD : 0 < m.embedding_dim) :
    ∃ out loss, m.forward x = some (out, loss) ∧
      out.b = x.b ∧ out.c = x.c ∧ out.h = x.h ∧ out.w = x.w ∧
      out.data.length = x.b * (x.c * (x.h * x.w)) := by
  have hmod : (toBHWC x).length % m.embedding_dim = 0 :=
    Nat.dvd_iff_mod_eq_zero.mp (by
      rw [length_toBHWC, hc]
      exact ⟨x.b * x.h * x.w, by ring⟩)
  exact ⟨_, _, forward_eq m x (Nat.pos_iff_ne_zero.mp hD) hmod,
    rfl, rfl, rfl, rfl, length_fromBHWC _ _ _ _ _⟩

/-- Witness for C7 at B = 1, C = D = 2, H = 1, W = 2. -/
theorem vq_output_shape_witness :
    ∃ out loss,
      VQ.forward ⟨1, 2, [[0, 0]], 1/2⟩ ⟨1, 2, 1, 2, [1, 2, 3, 4]⟩
          = some (out, loss) ∧
      out.b = 1 ∧ out.c = 2 ∧ out.h = 1 ∧ out.w = 2 ∧
      out.data.length = 1 * (2 * (1 * 2)) :=
  vq_output_shape ⟨1, 2, [[0, 0]], 1/2⟩ ⟨1, 2, 1, 2, [1, 2, 3, 4]⟩
    (by decide) (by decide)

theorem mse_loss_nil : mse_loss [] [] = 0 := by
  simp [mse_loss]

/-- C8: with N = B*H*W = 0 (empty batch or zero spatial extent) the
forward pass does not fail: it returns an empty tensor of the input's
shape, and in the exact rational model the mean over zero elements is 0,
so the loss is exactly 0 (PyTorch would produce NaN, which the claim also
permits). -/
theorem vq_empty_input (m : VQ) (x : Tensor4)
    (_hc : x.c = m.embedding_dim) (hD : 0 < m.embedding_dim)
    (hN : x.b * x.h * x.w = 0) :
    ∃ out, m.forward x = some (out, 0) ∧ out.data = [] ∧
      out.b = x.b ∧ out.c = x.c ∧ out.h = x.h ∧ out.w = x.w := by
  have hlen : (toBHWC x).length = 0 := by
    rw [length_toBHWC,
      show x.b * (x.h * (x.w * x.c)) = x.c * (x.b * x.h * x.w) by ring,
      hN, mul_zero]
  have hmod : (toBHWC x).length % m.embedding_dim = 0 := by
    rw [hlen]
    exact Nat.zero_mod _
  have hx : toBHWC x = [] := List.eq_nil_of_length_eq_zero hlen
  have hq : m.quantized_bhwc x = [] := by
    apply List.eq_nil_of_length_eq_zero
    rw [length_quantized_bhwc, hlen]
    simp
  have hfwd := forward_eq m x (Nat.pos_iff_ne_zero.mp hD) hmod
  rw [hx, hq] at hfwd
  simp only [List.zipWith_nil_right, detachL, mse_loss_nil, mul_zero,
    add_zero] at hfwd
  refine ⟨fromBHWC x.b x.c x.h x.w [], hfwd, ?_, rfl, rfl, rfl, rfl⟩
  apply List.eq_nil_of_length_eq_zero
  rw [length_fromBHWC,
    show x.b * (x.c * (x.h * x.w)) = x.c * (x.b * x.h * x.w) by ring,
    hN, mul_zero]

/-- Witness for C8 at B = 0. -/
theorem vq_empty_input_witness :
    ∃ out,
      VQ.forward ⟨1, 1, [[0]], 1/4⟩ ⟨0, 1, 1, 1, []⟩ = some (out, 0) ∧
      out.data = [] ∧ out.b = 0 ∧ out.c = 1 ∧ out.h = 1 ∧ out.w = 1 :=
  vq_empty_input ⟨1, 1, [[0]], 1/4⟩ ⟨0, 1, 1, 1, []⟩
    (by decide) (by decide) (by decide)

/-- Counterexample to C6 as stated: with configured D = 4 but input
channel dimension 2 and B*H*W*C = 4 divisible by 4, the forward pass
completes successfully instead of raising. -/
theorem vq_forward_channel_mismatch_completes :
    ¬ (⟨1, 2, 1, 2, [1, 2, 3, 4]⟩ : Tensor4).c
        = VQ.embedding_dim ⟨1, 4, [[0, 0, 0, 0]], 0⟩ ∧
      (VQ.forward ⟨1, 4, [[0, 0, 0, 0]], 0⟩
        ⟨1, 2, 1, 2, [1, 2, 3, 4]⟩).isSome = true := by
  decide

/-- C6 (amended): the forward pass raises (returns `none`) exactly when
the input's element count B*H*W*C is not divisible by the configured
embedding dimension D — there is no check of the channel dimension itself,
so a mismatched channel dimension slips through whenever the product
happens to be divisible by D. -/
theorem vq_forward_error_iff_not_divisible (m : VQ) (x : Tensor4)
    (hD : 0 < m.embedding_dim) :
    m.forward x = none ↔ ¬ m.embedding_dim ∣ x.b * x.h * x.w * x.c := by
  rw [forward_eq_none_iff m x hD, length_toBHWC,
    show x.b * (x.h * (x.w * x.c)) = x.b * x.h * x.w * x.c by ring]

/-- Witness for the amended C6: with D = 3 and 1*1*1*1 = 1 element, the
forward pass raises. -/
theorem vq_forward_error_iff_not_divisible_witness :
    VQ.forward ⟨1, 3, [[0, 0, 0]], 0⟩ ⟨1, 1, 1, 1, [5]⟩ = none
      ↔ ¬ (3 : ℕ) ∣ 1 * 1 * 1 * 1 :=
  vq_forward_error_iff_not_divisible ⟨1, 3, [[0, 0, 0]], 0⟩
    ⟨1, 1, 1, 1, [5]⟩ (by decide)

/-- Expression language for the autograd semantics of the VQ forward
pass: leaves are encoder-input elements (by flat channel-last index),
codebook weight entries and constants; `detach` is the gradient-blocking
primitive (identical value, zero gradient contribution). -/
inductive TExpr where
  | inp : ℕ → TExpr
  | wgt : ℕ → ℕ → TExpr
  | const : ℚ → TExpr
  | add : TExpr → TExpr → TExpr
  | sub : TExpr → TExpr → TExpr
  | mul : TExpr → TExpr → TExpr
  | scale : ℚ → TExpr → TExpr
  | detach : TExpr → TExpr

/-- Forward value of an expression, given the encoder-input elements `x`
and the codebook entries `w`; `detach` is the identity on values. -/
def TExpr.eval (x : ℕ → ℚ) (w : ℕ → ℕ → ℚ) : TExpr → ℚ
  | .inp i => x i
  | .wgt k d => w k d
  | .const c => c
  | .add a b => a.eval x w + b.eval x w
  | .sub a b => a.eval x w - b.eval x w
  | .mul a b => a.eval x w * b.eval x w
  | .scale c a => c * a.eval x w
  | .detach a => a.eval x w

/-- Derivative of an expression with respect to encoder-input element `j`:
the usual forward rules, except that `detach` contributes zero gradient. -/
def TExpr.dInp (x : ℕ → ℚ) (w : ℕ → ℕ → ℚ) (j : ℕ) : TExpr → ℚ
  | .inp i => if i = j then 1 else 0
  | .wgt _ _ => 0
  | .const _ => 0
  | .add a b => a.dInp x w j + b.dInp x w j
  | .sub a b => a.dInp x w j - b.dInp x w j
  | .mul a b => a.dInp x w j * b.eval x w + a.eval x w * b.dInp x w j
  | .scale c a => c * a.dInp x w j
  | .detach _ => 0

/-- Derivative of an expression with respect to codebook entry `(k, d)`:
`detach` contributes zero gradient. -/
def TExpr.dWgt (x : ℕ → ℚ) (w : ℕ → ℕ → ℚ) (k d : ℕ) : TExpr → ℚ
  | .inp _ => 0
  | .wgt k2 d2 => if k2 = k ∧ d2 = d then 1 else 0
  | .const _ => 0
  | .add a b => a.dWgt x w k d + b.dWgt x w k d
  | .sub a b => a.dWgt x w k d - b.dWgt x w k d
  | .mul a b => a.dWgt x w k d * b.eval x w + a.eval x w * b.dWgt x w k d
  | .scale c a => c * a.dWgt x w k d
  | .detach _ => 0

/-- Sum of a list of expressions. -/
def sumE (l : List TExpr) : TExpr := l.foldr .add (.const 0)

/-- Lines 157-165 of `modules.py` as an autograd graph: the quantized
element at flattened row `n`, channel `d` is
`sum over k of encodings[n, k] * weight[k, d]`; the `encodings` one-hot
matrix is built by `torch.zeros` plus `scatter_` on constant index data
and requires no gradient, so its entries enter as constants. -/
def quantE (enc : ℕ → ℕ → ℚ) (K n d : ℕ) : TExpr :=
  sumE ((List.range K).map (fun k => .mul (.const (enc n k)) (.wgt k d)))

/-- Line 190 of `modules.py` as an autograd graph: the straight-through
output element at flat channel-last position `p` (row `p / D`, channel
`p % D`) is `input + (quantized - input).detach()`. -/
def stE (enc : ℕ → ℕ → ℚ) (K D p : ℕ) : TExpr :=
  .add (.inp p) (.detach (.sub (quantE enc K (p / D) (p % D)) (.inp p)))

/-- `nn.functional.mse_loss(a, b)` (mean reduction) as an autograd graph
over `count` elements. -/
def mseE (a b : ℕ → TExpr) (count : ℕ) : TExpr :=
  .scale (1 / (count : ℚ))
    (sumE ((List.range count).map
      (fun p => .mul (.sub (a p) (b p)) (.sub (a p) (b p)))))

/-- Line 176 of `modules.py`:
`first_term = mse_loss(quantized_bhwc.detach(), encoder_inputs)`. -/
def firstTermE (enc : ℕ → ℕ → ℚ) (K D count : ℕ) : TExpr :=
  mseE (fun p => .detach (quantE enc K (p / D) (p % D)))
    (fun p => .inp p) count

/-- Line 179 of `modules.py`:
`second_term = mse_loss(quantized_bhwc, encoder_inputs.detach())`. -/
def secondTermE (enc : ℕ → ℕ → ℚ) (K D count : ℕ) : TExpr :=
  mseE (fun p => quantE enc K (p / D) (p % D))
    (fun p => .detach (.inp p)) count

theorem sumE_dInp (x : ℕ → ℚ) (w : ℕ → ℕ → ℚ) (j : ℕ) :
    ∀ (l : List TExpr),
      (sumE l).dInp x w j = (l.map (TExpr.dInp x w j)).sum
  | [] => by simp [sumE, TExpr.dInp]
  | e :: l => by
    simp only [sumE, List.foldr_cons, List.map_cons, List.sum_cons]
    rw [show (TExpr.add e (List.foldr TExpr.add (TExpr.const 0) l)).dInp x w j
        = e.dInp x w j + (List.foldr TExpr.add (TExpr.const 0) l).dInp x w j
      from rfl]
    rw [show List.foldr TExpr.add (TExpr.const 0) l = sumE l from rfl,
      sumE_dInp x w j l]

theorem sumE_dWgt (x : ℕ → ℚ) (w : ℕ → ℕ → ℚ) (k d : ℕ) :
    ∀ (l : List TExpr),
      (sumE l).dWgt x w k d = (l.map (TExpr.dWgt x w k d)).sum
  | [] => by simp [sumE, TExpr.dWgt]
  | e :: l => by
    simp only [sumE, List.foldr_cons, List.map_cons, List.sum_cons]
    rw [show (TExpr.add e (List.foldr TExpr.add (TExpr.const 0) l)).dWgt x w k d
        = e.dWgt x w k d + (List.foldr TExpr.add (TExpr.const 0) l).dWgt x w k d
      from rfl]
    rw [show List.foldr TExpr.add (TExpr.const 0) l = sumE l from rfl,
      sumE_dWgt x w k d l]

/-- The quantized tensor has no gradient path to the encoder input: the
selection one-hot entries are constants. -/
theorem quantE_dInp (x : ℕ → ℚ) (w : ℕ → ℕ → ℚ) (enc : ℕ → ℕ → ℚ)
    (K n d j : ℕ) : (quantE enc K n d).dInp x w j = 0 := by
  rw [quantE, sumE_dInp]
  apply List.sum_eq_zero
  intro y hy
  simp only [List.map_map, List.mem_map, Function.comp] at hy
  obtain ⟨k2, _, rfl⟩ := hy
  simp [TExpr.dInp]

/-- C4: for every input, codebook state and selection matrix, the
straight-through output element at flat position `p` has derivative 1 with
respect to input element `p` and 0 with respect to every other input
element (the Jacobian of `quantized` with respect to the encoder input is
the elementwise identity, independent of which codebook vector was
selected), while its forward value is exactly the quantized value. -/
theorem vq_straight_through_gradient (x : ℕ → ℚ) (w : ℕ → ℕ → ℚ)
    (enc : ℕ → ℕ → ℚ) (K D p j : ℕ) :
    (stE enc K D p).dInp x w j = (if p = j then 1 else 0) ∧
      (stE enc K D p).eval x w = (quantE enc K (p / D) (p % D)).eval x w := by
  constructor
  · simp [stE, TExpr.dInp]
  · simp only [stE, TExpr.eval]
    ring

/-- The first loss term (quantized side detached) has zero gradient to
every codebook entry. -/
theorem firstTermE_dWgt (x : ℕ → ℚ) (w : ℕ → ℕ → ℚ) (enc : ℕ → ℕ → ℚ)
    (K D count k d : ℕ) : (firstTermE enc K D count).dWgt x w k d = 0 := by
  unfold firstTermE mseE
  rw [show ∀ (c : ℚ) (e : TExpr), (TExpr.scale c e).dWgt x w k d
      = c * e.dWgt x w k d from fun _ _ => rfl]
  rw [sumE_dWgt]
  have hz : ((List.range count).map
      (fun p => TExpr.mul
        (TExpr.sub (TExpr.detach (quantE enc K (p / D) (p % D)))
          (TExpr.inp p))
        (TExpr.sub (TExpr.detach (quantE enc K (p / D) (p % D)))
          (TExpr.inp p))) |>.map (TExpr.dWgt x w k d)).sum = 0 := by
    apply List.sum_eq_zero
    intro y hy
    simp only [List.map_map, List.mem_map, Function.comp] at hy
    obtain ⟨p, _, rfl⟩ := hy
    simp [TExpr.dWgt]
  rw [hz, mul_zero]

/-- The second loss term (input side detached) has zero gradient to every
encoder-input element. -/
theorem secondTermE_dInp (x : ℕ → ℚ) (w : ℕ → ℕ → ℚ) (enc : ℕ → ℕ → ℚ)
    (K D count j : ℕ) : (secondTermE enc K D count).dInp x w j = 0 := by
  unfold secondTermE mseE
  rw [show ∀ (c : ℚ) (e : TExpr), (TExpr.scale c e).dInp x w j
      = c * e.dInp x w j from fun _ _ => rfl]
  rw [sumE_dInp]
  have hz : ((List.range count).map
      (fun p => TExpr.mul
        (TExpr.sub (quantE enc K (p / D) (p % D))
          (TExpr.detach (TExpr.inp p)))
        (TExpr.sub (quantE enc K (p / D) (p % D))
          (TExpr.detach (TExpr.inp p)))) |>.map (TExpr.dInp x w j)).sum
      = 0 := by
    apply List.sum_eq_zero
    intro y hy
    simp only [List.map_map, List.mem_map, Function.comp] at hy
    obtain ⟨p, _, rfl⟩ := hy
    simp [TExpr.dInp, quantE_dInp]
  rw [hz, mul_zero]

/-- Counterexample to C5 as stated, at K = D = 1, one element, codebook
entry 0, input element 1, selection one-hot 1: the first loss term (the
one with the quantized tensor detached) has gradient 2 — not 0 — with
respect to the encoder input and gradient 0 — not nonzero — with respect
to the codebook entry, and the second term has gradient -2 — not 0 — with
respect to the codebook entry and 0 — not nonzero — with respect to the
encoder input: the claim has the two gradient destinations exactly
swapped. -/
theorem vq_loss_gradient_direction_counterexample :
    (firstTermE (fun _ _ => 1) 1 1 1).dInp (fun _ => 1) (fun _ _ => 0) 0
        = 2 ∧
      (firstTermE (fun _ _ => 1) 1 1 1).dWgt (fun _ => 1) (fun _ _ => 0) 0 0
        = 0 ∧
      (secondTermE (fun _ _ => 1) 1 1 1).dWgt (fun _ => 1) (fun _ _ => 0) 0 0
        = -2 ∧
      (secondTermE (fun _ _ => 1) 1 1 1).dInp (fun _ => 1) (fun _ _ => 0) 0
        = 0 := by
  norm_num [firstTermE, secondTermE, mseE, sumE, quantE, TExpr.dInp,
    TExpr.dWgt, TExpr.eval, List.range_succ]

/-- C5 (amended): in the code the two detach calls sit on the opposite
operands from what the claim states, so the gradient destinations are
swapped: the first (unweighted) loss term contributes zero gradient to
every codebook entry — it can only update the encoder — and the second
(beta-weighted) term contributes zero gradient to every encoder-input
element — it can only update the codebook. -/
theorem vq_loss_terms_gradient_targets (x : ℕ → ℚ) (w : ℕ → ℕ → ℚ)
    (enc : ℕ → ℕ → ℚ) (K D count k d j : ℕ) :
    (firstTermE enc K D count).dWgt x w k d = 0 ∧
      (secondTermE enc K D count).dInp x w j = 0 :=
  ⟨firstTermE_dWgt x w enc K D count k d,
    secondTermE_dInp x w enc K D count j⟩

theorem getD_set_eq {α : Type} (l : List α) (i : ℕ) (v d : α)
    (h : i < l.length) : (l.set i v).getD i d = v := by
  rw [List.getD_eq_getElem _ _ (by simpa using h)]
  simp

theorem getD_set_ne {α : Type} (l : List α) (i j : ℕ) (v d : α)
    (h : ¬ i = j) : (l.set i v).getD j d = l.getD j d := by
  by_cases hj : j < l.length
  · rw [List.getD_eq_getElem _ _ (by simpa using hj),
      List.getD_eq_getElem _ _ hj]
    simp [h]
  · rw [List.getD_eq_default _ _ (by simpa using le_of_not_lt hj),
      List.getD_eq_default _ _ (le_of_not_lt hj)]

/-- Entry access in a numpy-style 2-d grid (a list of rows). -/
def getEntry (g : List (List ℚ)) (i j : ℕ) : ℚ := (g.getD i []).getD j 0

/-- The assignment `mask_grid[i][j] = v` on a list-of-rows grid. -/
def setEntry (g : List (List ℚ)) (i j : ℕ) (v : ℚ) : List (List ℚ) :=
  g.set i ((g.getD i []).set j v)

/-- Lines 243-258 of `modules.py`: `conv_mask_abstract(size, current_pos,
mask_type)` — start from `np.zeros((size, size))`, set every entry with
`j < x or i < y` to 1 in a double loop over rows `i` and columns `j`, then
overwrite the current position `[y][x]` with 1 when `mask_type == "B"` and
with 0 otherwise. -/
def conv_mask_abstract (size : ℕ) (current_pos : ℕ × ℕ)
    (mask_type : String) : List (List ℚ) :=
  let x := current_pos.1
  let y := current_pos.2
  let g0 := List.replicate size (List.replicate size (0 : ℚ))
  let g1 := (List.range size).foldl (fun g i =>
    (List.range size).foldl (fun g2 j =>
      if j < x ∨ i < y then setEntry g2 i j 1 else g2) g) g0
  if mask_type = "B" then setEntry g1 y x 1 else setEntry g1 y x 0

theorem foldl_preserves {α β : Type} (P : β → Prop) (f : β → α → β)
    (hp : ∀ g a, P g → P (f g a)) :
    ∀ (l : List α) (g : β), P g → P (l.foldl f g)
  | [], _, hg => hg
  | a :: l, g, hg => foldl_preserves P f hp l (f g a) (hp g a hg)

/-- The shape invariant of the mask grid: `size` rows, each of length
`size`, preserved by every `setEntry`. -/
def GridShape (size : ℕ) (g : List (List ℚ)) : Prop :=
  g.length = size ∧ ∀ i, i < size → (g.getD i []).length = size

theorem gridShape_setEntry (size : ℕ) (g : List (List ℚ)) (i j : ℕ)
    (v : ℚ) (hg : GridShape size g) : GridShape size (setEntry g i j v) := by
  obtain ⟨hlen, hrow⟩ := hg
  refine ⟨by simp [setEntry, hlen], ?_⟩
  intro i2 hi2
  by_cases hii : i = i2
  · subst hii
    rw [setEntry, getD_set_eq _ _ _ _ (by rw [hlen]; exact hi2)]
    rw [List.length_set]
    exact hrow i hi2
  · rw [setEntry, getD_set_ne _ _ _ _ _ hii]
    exact hrow i2 hi2

theorem gridShape_zeros (size : ℕ) :
    GridShape size (List.replicate size (List.replicate size (0 : ℚ))) := by
  refine ⟨by simp, ?_⟩
  intro i hi
  rw [List.getD_eq_getElem _ _ (by simpa using hi)]
  simp

theorem gridShape_loop (size x y : ℕ) :
    GridShape size ((List.range size).foldl (fun g i =>
      (List.range size).foldl (fun g2 j =>
        if j < x ∨ i < y then setEntry g2 i j 1 else g2) g)
      (List.replicate size (List.replicate size (0 : ℚ)))) := by
  apply foldl_preserves (GridShape size)
  · intro g i hg
    apply foldl_preserves (GridShape size)
    · intro g2 j hg2
      by_cases hcond : j < x ∨ i < y
      · rw [if_pos hcond]
        exact gridShape_setEntry size g2 i j 1 hg2
      · rwa [if_neg hcond]
    · exact hg
  · exact gridShape_zeros size

theorem getEntry_setEntry_ne (g : List (List ℚ)) (y x i j : ℕ) (v : ℚ)
    (h : ¬ (i = y ∧ j = x)) :
    getEntry (setEntry g y x v) i j = getEntry g i j := by
  by_cases hi : y = i
  · subst hi
    have hj : ¬ x = j := by
      intro hxj
      exact h ⟨rfl, hxj.symm⟩
    by_cases hlen : y < g.length
    · unfold getEntry setEntry
      rw [getD_set_eq _ _ _ _ hlen, getD_set_ne _ _ _ _ _ hj]
    · unfold getEntry setEntry
      rw [List.set_eq_of_length_le (le_of_not_lt hlen)]
  · unfold getEntry setEntry
    rw [getD_set_ne _ _ _ _ _ hi]

theorem getEntry_setEntry_eq (size : ℕ) (g : List (List ℚ)) (y x : ℕ)
    (v : ℚ) (hg : GridShape size g) (hy : y < size) (hx : x < size) :
    getEntry (setEntry g y x v) y x = v := by
  obtain ⟨hlen, hrow⟩ := hg
  unfold getEntry setEntry
  rw [getD_set_eq _ _ _ _ (by rw [hlen]; exact hy),
    getD_set_eq _ _ _ _ (by rw [hrow y hy]; exact hx)]

/-- C9: for every mask size and every in-bounds current position, the
type-"B" and type-"A" mask grids agree at every entry except the current
position `[y][x]` itself, which is 1 in the B mask and 0 in the A mask. -/
theorem conv_mask_B_vs_A (size x y : ℕ) (hx : x < size) (hy : y < size) :
    (∀ i j, ¬ (i = y ∧ j = x) →
      getEntry (conv_mask_abstract size (x, y) "B") i j
        = getEntry (conv_mask_abstract size (x, y) "A") i j) ∧
      getEntry (conv_mask_abstract size (x, y) "B") y x = 1 ∧
      getEntry (conv_mask_abstract size (x, y) "A") y x = 0 := by
  have hshape := gridShape_loop size x y
  unfold conv_mask_abstract
  rw [if_pos (by decide : ("B" : String) = "B"),
    if_neg (by decide : ¬ ("A" : String) = "B")]
  refine ⟨?_, ?_, ?_⟩
  · intro i j hij
    rw [getEntry_setEntry_ne _ _ _ _ _ _ hij,
      getEntry_setEntry_ne _ _ _ _ _ _ hij]
  · exact getEntry_setEntry_eq size _ y x 1 hshape hy hx
  · exact getEntry_setEntry_eq size _ y x 0 hshape hy hx

/-- Witness for C9 at size 3, current position (1, 1). -/
theorem conv_mask_B_vs_A_witness :
    (∀ i j, ¬ (i = 1 ∧ j = 1) →
      getEntry (conv_mask_abstract 3 (1, 1) "B") i j
        = getEntry (conv_mask_abstract 3 (1, 1) "A") i j) ∧
      getEntry (conv_mask_abstract 3 (1, 1) "B") 1 1 = 1 ∧
      getEntry (conv_mask_abstract 3 (1, 1) "A") 1 1 = 0 :=
  conv_mask_B_vs_A 3 1 1 (by decide) (by decide)

/-- Model of the call `self.weight.shape()` at line 267 of `modules.py`:
`Tensor.shape` is a `torch.Size` value (a tuple), not a method, so calling
it raises `TypeError` for every tensor, before any shape data can be
produced. -/
def tensor_shape_call : Except String (ℕ × ℕ × ℕ × ℕ) :=
  Except.error "TypeError: torch.Size object is not callable"

/-- Model of `nn.Module.register_buffer(name, ...)`: raises `KeyError`
when the name is already taken by an existing module member (as
`self.mask` is after line 270), otherwise records the buffer name. -/
def register_buffer (attrs : List String) (name : String) :
    Except String (List String) :=
  if name ∈ attrs then Except.error "KeyError: name already exists"
  else Except.ok (name :: attrs)

/-- Lines 263-273 of `modules.py`, `MaskedConv2d.__init__` after the
`nn.Conv2d` super constructor: call `self.weight.shape()` (which raises —
`shape` is not callable), halve the kernel sizes, build the mask with
`conv_mask_abstract`, assign it to `self.mask`, then try to
`register_buffer` under the same name `mask`. The result is the final
member-name list of the module. -/
def maskedConv2dInit (mask_type : String) : Except String (List String) := do
  let (_b, _c, h, w) ← tensor_shape_call
  let centre_h := h / 2
  let centre_w := w / 2
  let _mask := conv_mask_abstract h (centre_w, centre_h) mask_type
  let attrs := ["mask"]
  register_buffer attrs "mask"

/-- C10: for every mask type, constructing a `MaskedConv2d` raises before
completing — the `self.weight.shape()` call is a `TypeError` — and even
past that point the `register_buffer` call under the already-assigned name
`mask` would raise as well, so no successfully constructed instance (and
hence no reachable `forward`) exists. -/
theorem maskedConv2dInit_always_raises (mask_type : String) :
    maskedConv2dInit mask_type
        = Except.error "TypeError: torch.Size object is not callable" ∧
      register_buffer ["mask"] "mask"
        = Except.error "KeyError: name already exists" := by
  constructor
  · rfl
  · rfl

end VQVAE
